import Mathlib

/-!
Verification development for the release-me repository.

The development embeds, as executable Lean definitions, the parts of the
source that the verified properties concern:

* `Semver` — the local SemVer implementation of `src/semver.ts`
  (`SemVer.fromString`, `SemVer.toString`, `SemVer.bump`,
  `identifierKeyValue`, `sortIdentifier`, `sortSemVer`);
* `Branching` — `getBranch` of `src/branching.ts`;
* `Action` — `determineIncrementType` of `src/action.ts`;
* `Changelog` — `generateChangelog` of `src/changelog.ts`;
* `VersionIt` — models of the external `version-it` value types
  (`SemVer`, `CalVer`) that `src/versioning.ts` manipulates; these are not
  part of this repository, so they are modelled from the specification;
* `Versioning` — `SemVerScheme.determineIncrementType` and both revisions
  of `incrementVersion` of `src/versioning.ts`.

Numbers are `Nat` (the source only ever produces non-negative integers from
`\d+` capture groups), strings are `String`/`List Char`, thrown `Error`s are
`Except String`, and `undefined` is `Option.none`.
-/

/-! ## Decimal digit utilities

JavaScript renders numbers with `${n}` (canonical decimal) and parses digit
runs with `parseInt`.  `natToChars` is the canonical decimal rendering
(fuel-structured so that it evaluates inside the kernel), `charsToNat` the
digit-run parse. -/

/-- Numeric value of a decimal digit character, `none` for any other
character.  This is the character class `[0-9]` (= `\d`) of the source
regexes. -/
def charDigit (c : Char) : Option Nat :=
  if c = '0' then some 0
  else if c = '1' then some 1
  else if c = '2' then some 2
  else if c = '3' then some 3
  else if c = '4' then some 4
  else if c = '5' then some 5
  else if c = '6' then some 6
  else if c = '7' then some 7
  else if c = '8' then some 8
  else if c = '9' then some 9
  else none

/-- Character class `[0-9]`. -/
def isDigitChar (c : Char) : Bool :=
  (charDigit c).isSome

/-- Character class `[a-zA-Z0-9.-]` used for pre-release and build
identifiers in the SemVer regex. -/
def isIdChar (c : Char) : Bool :=
  c.isAlpha || isDigitChar c || c = '.' || c = '-'

/-- Character class `[a-zA-Z-]` used for the key part of an identifier in
`identifierKeyValue`. -/
def isKeyChar (c : Char) : Bool :=
  c.isAlpha || c = '-'

/-- Fuel-driven canonical decimal rendering, least significant digit
peeled off first into the accumulator. -/
def natToCharsAux : Nat → Nat → List Char → List Char
  | 0, _, acc => acc
  | fuel + 1, n, acc =>
    if n < 10 then Nat.digitChar n :: acc
    else natToCharsAux fuel (n / 10) (Nat.digitChar (n % 10) :: acc)

/-- Canonical decimal rendering of a natural number, as JavaScript
renders a number inside a template literal. -/
def natToChars (n : Nat) : List Char :=
  natToCharsAux (n + 1) n []

/-- Canonical decimal rendering as a `String`. -/
def natToStr (n : Nat) : String :=
  String.mk (natToChars n)

/-- Value of a run of decimal digits, as `parseInt` computes it (leading
zeros allowed). -/
def charsToNat (cs : List Char) : Nat :=
  cs.foldl (fun a c => 10 * a + (charDigit c).getD 0) 0

/-! ## Generic chunk parsers shared by the version grammars -/

/-- Split a maximal non-empty run of decimal digits off the front
(`\d+` at the start of the remaining input); fails when the run is
empty. -/
def chunkDigits (cs : List Char) : Option (List Char × List Char) :=
  let d := cs.takeWhile isDigitChar
  if d.isEmpty then none else some (d, cs.dropWhile isDigitChar)

/-- Split a maximal non-empty run of identifier characters
(`[a-zA-Z0-9.-]+`) off the front; fails when the run is empty. -/
def chunkId (cs : List Char) : Option (List Char × List Char) :=
  let d := cs.takeWhile isIdChar
  if d.isEmpty then none else some (d, cs.dropWhile isIdChar)

/-- Consume a literal dot. -/
def expectDot : List Char → Option (List Char)
  | '.' :: r => some r
  | _ => none

namespace Semver

/-! ## Embedding of `src/semver.ts` -/

/-- The `SemVer` class of `src/semver.ts`: `prefix` (here `pfx`, since
`prefix` is reserved in Lean), numeric core, and the raw pre-release and
build identifier strings (`undefined` = `none`). -/
structure SemVer where
  pfx : Option String
  major : Nat
  minor : Nat
  patch : Nat
  preRelease : Option String
  build : Option String
deriving DecidableEq, Repr

/-- Parse result of the `SEMVER_REGEX` capture groups: the three digit
runs and the optional pre-release / build substrings. -/
structure Parts where
  d1 : List Char
  d2 : List Char
  d3 : List Char
  pre : Option (List Char)
  bld : Option (List Char)
deriving DecidableEq, Repr

/-- The optional `(-(?<preRelease>[a-zA-Z0-9.-]+))?(\+(?<build>[a-zA-Z0-9.-]+))?$`
tail of the SemVer regex.  The character class contains neither `+` nor
other separators, so the regex is equivalent to this deterministic
parse. -/
def parseTail : List Char → Option (Option (List Char) × Option (List Char))
  | [] => some (none, none)
  | '-' :: rest =>
    match chunkId rest with
    | none => none
    | some (p, r) =>
      match r with
      | [] => some (some p, none)
      | '+' :: rest2 =>
        match chunkId rest2 with
        | none => none
        | some (b, r2) => if r2.isEmpty then some (some p, some b) else none
      | _ => none
  | '+' :: rest =>
    match chunkId rest with
    | none => none
    | some (b, r2) => if r2.isEmpty then some (none, some b) else none
  | _ => none

/-- The full `SEMVER_REGEX`
`^(?<major>\d+)\.(?<minor>\d+)\.(?<patch>\d+)(-pre)?(\+build)?$`
as a deterministic parse into its capture groups. -/
def parseCore (cs : List Char) : Option Parts := do
  let (d1, r1) ← chunkDigits cs
  let r1d ← expectDot r1
  let (d2, r2) ← chunkDigits r1d
  let r2d ← expectDot r2
  let (d3, r3) ← chunkDigits r2d
  let (p, b) ← parseTail r3
  some ⟨d1, d2, d3, p, b⟩

/-- Prefix handling of `SemVer.fromString`: when a prefix is expected it
must start the string and is removed; otherwise the text is used as is. -/
def stripPfx (version : String) (pfx : Option String) : Except String (List Char) :=
  match pfx with
  | some p =>
    if p.data.isPrefixOf version.data then .ok (version.data.drop p.data.length)
    else .error "Incorrect SemVer, missing prefix"
  | none => .ok version.data

/-- Building the `SemVer` object from the regex capture groups
(`parseInt` on the digit runs, raw strings for the identifiers). -/
def ofParts (pfx : Option String) (parts : Parts) : SemVer :=
  { pfx := pfx
    major := charsToNat parts.d1
    minor := charsToNat parts.d2
    patch := charsToNat parts.d3
    preRelease := parts.pre.map (fun l => String.mk l)
    build := parts.bld.map (fun l => String.mk l) }

/-- `SemVer.fromString(version, prefix)` of `src/semver.ts`: strip the
prefix (throwing when it is missing), run the regex, throw when it does
not match. -/
def SemVer.fromString (version : String) (pfx : Option String) : Except String SemVer := do
  let cs ← stripPfx version pfx
  match parseCore cs with
  | some parts => .ok (ofParts pfx parts)
  | none => .error "Could not parse SemVer"

/-- Rendering of an optional identifier with its separator; JavaScript
truthiness omits both `undefined` and the empty string. -/
def optSuffix (sep : Char) : Option String → List Char
  | none => []
  | some s => if s.data.isEmpty then [] else sep :: s.data

/-- `SemVer.toString()` of `src/semver.ts`:
`prefix? + major.minor.patch + (-preRelease)? + (+build)?`. -/
def SemVer.toString (v : SemVer) : String :=
  String.mk
    ((v.pfx.map String.data).getD []
      ++ natToChars v.major ++ '.' :: natToChars v.minor ++ '.' :: natToChars v.patch
      ++ optSuffix '-' v.preRelease ++ optSuffix '+' v.build)

/-- The identifier regex `^([a-zA-Z-]+[.])([0-9]+)$` of
`identifierKeyValue`, at character-list level.  The key class contains no
dot, so the regex is equivalent to this deterministic parse. -/
def identKVChars (cs : List Char) : Option (String × Nat) :=
  let k := cs.takeWhile isKeyChar
  let r := cs.dropWhile isKeyChar
  if k.isEmpty then none
  else
    match r with
    | '.' :: ds =>
      if ds.isEmpty || !(ds.all isDigitChar) then none
      else some (String.mk (k ++ ['.']), charsToNat ds)
    | _ => none

/-- `identifierKeyValue(identifier)` of `src/semver.ts`: `undefined`
input is treated as the empty string; a non-matching input yields an
object with no key/value (modelled as `none`). -/
def identifierKeyValue (identifier : Option String) : Option (String × Nat) :=
  identKVChars (identifier.getD "").data

/-- `sortIdentifier(a, b)` of `src/semver.ts`; `none` is the `undefined`
result (tie, fall through to the next criterion). -/
def sortIdentifier (a b : Option String) : Option Int :=
  let aValue := (identifierKeyValue a).map Prod.snd
  let bValue := (identifierKeyValue b).map Prod.snd
  match aValue, bValue with
  | none, some _ => some 1
  | some _, none => some (-1)
  | some x, some y => if x = y then none else if x > y then some 1 else some (-1)
  | none, none => none

/-- `sortSemVer(a, b)` of `src/semver.ts`: lexicographic on the numeric
core, then `sortIdentifier` on pre-release, then on build, else `0`. -/
def sortSemVer (a b : SemVer) : Int :=
  if a.major ≠ b.major then (if a.major > b.major then 1 else -1)
  else if a.minor ≠ b.minor then (if a.minor > b.minor then 1 else -1)
  else if a.patch ≠ b.patch then (if a.patch > b.patch then 1 else -1)
  else
    match sortIdentifier a.preRelease b.preRelease with
    | some r => r
    | none =>
      match sortIdentifier a.build b.build with
      | some r => r
      | none => 0

/-- The bump targets of `SemVer.bump` (`SemVerVersionCore` and
`SemVerIdentifier` of the source). -/
inductive BumpType
  | major
  | minor
  | patch
  | preRelease
  | build
deriving DecidableEq, Repr

/-- `SemVer.bumpIdentifier` of `src/semver.ts` applied to a field value:
an absent field bumps to `undefined` (the caller substitutes a default),
a present field must match the identifier regex (else the method throws)
and its numeric suffix is incremented. -/
def bumpIdentifierField (field : Option String) (fieldName : String) :
    Except String (Option String) :=
  match field with
  | none => .ok none
  | some s =>
    match identifierKeyValue (some s) with
    | some (k, val) => .ok (some (k ++ natToStr (val + 1)))
    | none => .error ("Unable to bump " ++ fieldName)

/-- `SemVer.bump(type)` of `src/semver.ts`.  Core bumps reset all lesser
significant fields; `preRelease` clears build; `build` keeps the
pre-release. -/
def SemVer.bump (v : SemVer) : BumpType → Except String SemVer
  | .preRelease => do
    let p ← bumpIdentifierField v.preRelease "preRelease"
    .ok { v with preRelease := some (p.getD "rc.1"), build := none }
  | .build => do
    let b ← bumpIdentifierField v.build "build"
    .ok { v with build := some (b.getD "build.1") }
  | .major =>
    .ok { pfx := v.pfx, major := v.major + 1, minor := 0, patch := 0
          preRelease := none, build := none }
  | .minor =>
    .ok { pfx := v.pfx, major := v.major, minor := v.minor + 1, patch := 0
          preRelease := none, build := none }
  | .patch =>
    .ok { pfx := v.pfx, major := v.major, minor := v.minor, patch := v.patch + 1
          preRelease := none, build := none }

/-- Stable insertion into a list sorted by a JavaScript-style comparator. -/
def insertSorted (cmp : α → α → Int) (x : α) : List α → List α
  | [] => [x]
  | y :: ys => if cmp x y < 0 then x :: y :: ys else y :: insertSorted cmp x ys

/-- Stable sort by a JavaScript-style comparator, as
`Array.prototype.sort` behaves for a consistent comparator (stability is
required by the ECMAScript specification). -/
def sortByCmp (cmp : α → α → Int) (l : List α) : List α :=
  l.foldl (fun acc x => insertSorted cmp x acc) []

/-- Well-formedness of the three numeric capture groups of a parsed
version text: the digit run is the canonical decimal numeral (no
superfluous leading zeros). -/
def canonicalChunk (d : List Char) : Bool :=
  d = ['0'] || d.head? ≠ some '0'

/-- All three numeric components of an accepted version text are
canonical decimal numerals.  Texts that are not accepted at all satisfy
the predicate vacuously. -/
def canonicalNumerals (version : String) (pfx : Option String) : Bool :=
  match stripPfx version pfx with
  | .error _ => true
  | .ok cs =>
    match parseCore cs with
    | none => true
    | some parts => canonicalChunk parts.d1 && canonicalChunk parts.d2 && canonicalChunk parts.d3

end Semver

namespace Branching

/-! ## Embedding of `src/branching.ts` -/

/-- The two branch kinds of `IBranch.type`. -/
inductive BranchType
  | default
  | release
deriving DecidableEq, Repr, BEq

/-- The `IBranch` interface: branch kind plus the optional modifier of a
release branch. -/
structure Branch where
  type : BranchType
  modifier : Option String
deriving DecidableEq, Repr

/-- JavaScript `String.prototype.split` with a one-character separator:
all segments are kept, including empty ones, and the empty string splits
to `[""]`. -/
def splitOnChar (sep : Char) : List Char → List (List Char)
  | [] => [[]]
  | c :: rest =>
    if c = sep then [] :: splitOnChar sep rest
    else
      match splitOnChar sep rest with
      | [] => [[c]]
      | s :: ss => (c :: s) :: ss

/-- `name.split("/")` as a `String` operation. -/
def splitSlash (s : String) : List String :=
  (splitOnChar '/' s.data).map (fun l => String.mk l)

/-- JavaScript `String.prototype.replace` with a plain-string pattern:
replace the first occurrence only (an empty pattern matches at the
start). -/
def replaceFirst : List Char → List Char → List Char → List Char
  | [], pat, rep => if pat.isEmpty then rep else []
  | c :: rest, pat, rep =>
    if pat.isPrefixOf (c :: rest) then rep ++ (c :: rest).drop pat.length
    else c :: replaceFirst rest pat rep

/-- The branch name seen by `getBranch`: the ref with the first
occurrence of `refs/heads/` removed. -/
def branchNameOf (ref : String) : String :=
  String.mk (replaceFirst ref.data "refs/heads/".data [])

/-- The error message thrown for a branch that is neither the default
branch nor `release/<modifier>`. -/
def invalidBranchMsg : String :=
  "Invalid branch name, expected either \x27release/<modifier>\x27 or \x27<default>\x27"

/-- `getBranch()` of `src/branching.ts`.  The ambient
`github.context.ref` and the repository default branch (which the payload
may lack, hence `Option`) are passed explicitly. -/
def getBranch (ref : String) (defaultBranch : Option String) : Except String Branch :=
  let currentBranch := branchNameOf ref
  if some currentBranch = defaultBranch then .ok ⟨.default, none⟩
  else
    let branchElements := splitSlash currentBranch
    if branchElements.length ≠ 2 ∨ branchElements[0]? ≠ some "release" then
      .error invalidBranchMsg
    else .ok ⟨.release, branchElements[1]?⟩

/-- The claim-shaped characterisation of `getBranch` on a non-default
branch name: `release` exactly for names splitting into
`["release", m]`, an error otherwise. -/
def claimBranch (name : String) : Except String Branch :=
  match splitSlash name with
  | ["release", m] => .ok ⟨.release, some m⟩
  | _ => .error invalidBranchMsg

end Branching

namespace Action

/-! ## Embedding of `determineIncrementType` of `src/action.ts` -/

/-- The `IConventionalCommit` records consumed by the changelog and by
`determineIncrementType` of `src/action.ts` (these commits have already
passed conventional-commit classification). -/
structure CCommit where
  type : String
  scope : Option String
  description : String
  breaking : Bool
deriving DecidableEq, Repr

/-- Loop of `determineIncrementType` with the `feat`/`fix` counters made
explicit: a breaking commit returns `"major"` immediately, otherwise the
exact types `feat`/`fix` are counted. -/
def detLoop : List CCommit → Nat → Nat → Option String
  | [], featc, fixc =>
    if 0 < featc then some "minor"
    else if 0 < fixc then some "patch"
    else none
  | c :: rest, featc, fixc =>
    if c.breaking then some "major"
    else if c.type = "feat" then detLoop rest (featc + 1) fixc
    else if c.type = "fix" then detLoop rest featc (fixc + 1)
    else detLoop rest featc fixc

/-- `determineIncrementType(commits)` of `src/action.ts`, returning the
`keyof ISemVer` strings `"major"`, `"minor"`, `"patch"` or `undefined`. -/
def determineIncrementType (commits : List CCommit) : Option String :=
  detLoop commits 0 0

end Action

namespace Changelog

/-! ## Embedding of `generateChangelog` of `src/changelog.ts` -/

open Action

/-- The `IExclude` configuration record. -/
structure Exclude where
  increment : Option (List String)
  types : Option (List String)
  scopes : Option (List String)
deriving DecidableEq, Repr

/-- A changelog category of `IReleaseConfiguration` (the `changelog`
wrapper object is flattened away). -/
structure Category where
  title : String
  increment : Option (List String)
  types : Option (List String)
  scopes : Option (List String)
  exclude : Option Exclude
deriving DecidableEq, Repr

/-- `IReleaseConfiguration.changelog`: the optional top-level exclude and
the category list. -/
structure Config where
  exclude : Option Exclude
  categories : List Category
deriving DecidableEq, Repr

/-- The defaulting step of `getConfiguration`: an absent filter list is a
wildcard. -/
def normalizeCategory (c : Category) : Category :=
  { c with
    increment := some (c.increment.getD ["*"])
    scopes := some (c.scopes.getD ["*"])
    types := some (c.types.getD ["*"]) }

/-- `getConfiguration()` with the repository configuration passed
explicitly (the remote fetch and YAML parsing are collaborators): every
category gets wildcard defaults for missing filters. -/
def getConfiguration (cfg : Config) : Config :=
  { cfg with categories := cfg.categories.map normalizeCategory }

/-- The local `isMatch` helper of `generateChangelog`:
`item !== undefined && value !== undefined && value.includes(item)`. -/
def isMatch (value : Option (List String)) (item : Option String) : Bool :=
  match item, value with
  | some i, some v => v.contains i
  | _, _ => false

/-- The local `isWildcard` helper of `generateChangelog`. -/
def isWildcard (value : Option (List String)) : Bool :=
  isMatch value (some "*")

/-- The commit filter of one changelog category: the conjunction of the
increment, type and scope predicates, each an include-match minus the
category-level and top-level excludes.  The per-commit increment type is
`determineIncrementType` on the singleton list. -/
def commitMatches (config : Config) (category : Category) (c : CCommit) : Bool :=
  let incrementType := determineIncrementType [c]
  let hasValidIncrement :=
    (isWildcard category.increment || isMatch category.increment incrementType)
      && !isMatch (category.exclude.bind Exclude.increment) incrementType
      && !isMatch (config.exclude.bind Exclude.increment) incrementType
  let hasValidType :=
    (isWildcard category.types || isMatch category.types (some c.type))
      && !isMatch (category.exclude.bind Exclude.types) (some c.type)
      && !isMatch (config.exclude.bind Exclude.types) (some c.type)
  let hasValidScope :=
    (isWildcard category.scopes || isMatch category.scopes c.scope)
      && !isMatch (category.exclude.bind Exclude.scopes) c.scope
      && !isMatch (config.exclude.bind Exclude.scopes) c.scope
  hasValidIncrement && hasValidType && hasValidScope

/-- `firstCharToUpperCase(value)` of `src/changelog.ts`:
`value.charAt(0).toUpperCase() + value.slice(1)`. -/
def firstCharToUpperCase (value : String) : String :=
  match value.data with
  | [] => ""
  | c :: rest => String.mk (c.toUpper :: rest)

/-- The markdown block a category maps to inside `generateChangelog`:
`undefined` (= `none`) when no commit matches, else the `###` heading
with one bullet per matching commit. -/
def categoryBlock (config : Config) (category : Category) (commits : List CCommit) :
    Option String :=
  let categoryCommits := commits.filter (commitMatches config category)
  if categoryCommits.length > 0 then
    some ("### " ++ category.title ++ "\n\n"
      ++ String.intercalate "\n"
          (categoryCommits.map (fun c => "- " ++ firstCharToUpperCase c.description))
      ++ "\n\n")
  else none

/-- `generateChangelog(commits)` of `src/changelog.ts`: the category
array is mapped to blocks (`undefined` for empty categories) and joined
with `"\n"`; `Array.prototype.join` renders `undefined` elements as the
empty string. -/
def generateChangelog (cfg : Config) (commits : List CCommit) : String :=
  let config := getConfiguration cfg
  "## What\x27s Changed\n\n"
    ++ String.intercalate "\n"
        (config.categories.map (fun category => (categoryBlock config category commits).getD ""))

/-- The claim-shaped rendering: a `## What\x27s Changed` header, then per
category with at least one matching commit a `###` heading followed by
one bullet per matching commit (description capitalised); categories
with zero matching commits contribute no heading and no bullets. -/
def claimChangelog (cfg : Config) (commits : List CCommit) : String :=
  let config := getConfiguration cfg
  "## What\x27s Changed\n\n"
    ++ String.intercalate "\n"
        (config.categories.map (fun category =>
          let ms := commits.filter (commitMatches config category)
          if ms.isEmpty then ""
          else "### " ++ category.title ++ "\n\n"
            ++ String.intercalate "\n" (ms.map (fun c => "- " ++ firstCharToUpperCase c.description))
            ++ "\n\n"))

end Changelog

namespace VersionIt

/-! ## Models of the external version-it value types

The `SemVer` and `CalVer` classes used by `src/versioning.ts` come from
the external package `dev-build-deploy/version-it`, whose source is not
part of this repository.  They are therefore modelled from the
specification (data model and operation descriptions of the spec), at the
interface `src/versioning.ts` consumes: fields `major`/`minor`/`patch`/
`preReleases`/`build` and `year`/`month`/`micro`/`modifiers`/`format`,
plus `fromString`, `toString`, `increment`, `compareTo` and
`isGreaterThan`. -/

open Branching

/-- Modelled from the spec: an identifier element as version-it stores it
and as `src/versioning.ts` constructs it literally
(`{identifier: "hotfix", value: 1, length: 1}`). -/
structure VIIdentifier where
  identifier : String
  value : Nat
  length : Nat
deriving DecidableEq, Repr

/-- Modelled from the spec: the version-it `SemVer` value type
(`prefix` as `pfx`; `preReleases` is the identifier list
`src/versioning.ts` reads and assigns; `build` kept as the raw optional
identifier text). -/
structure VISemVer where
  pfx : Option String
  major : Nat
  minor : Nat
  patch : Nat
  preReleases : List VIIdentifier
  build : Option String
deriving DecidableEq, Repr

/-- Modelled from the spec: the version-it `CalVer` value type for the
`YYYY.0M.MICRO` format (the format string is carried along, as
`src/versioning.ts` reads `version.format`). -/
structure VICalVer where
  format : String
  pfx : Option String
  year : Nat
  month : Nat
  micro : Nat
  modifiers : List VIIdentifier
deriving DecidableEq, Repr

/-- The injected clock of the Calendar increment (the spec requires the
current date to be an injected dependency). -/
structure Clock where
  year : Nat
  month : Nat
deriving DecidableEq, Repr

/-- The increment kinds of both schemes
(`SemVerIncrement | CalVerIncrement | "RELEASE"`). -/
inductive Increment
  | MAJOR
  | MINOR
  | PATCH
  | PRERELEASE
  | BUILD
  | RELEASE
  | CALENDAR
  | MICRO
  | MODIFIER
deriving DecidableEq, Repr, BEq

/-- Modelled from the spec: parse an identifier text such as `rc.3` into
a structured identifier; a text without the `key.number` shape is kept
verbatim with value 0. -/
def parseIdent (l : List Char) : VIIdentifier :=
  match Semver.identKVChars l with
  | some (k, v) => ⟨k, v, 1⟩
  | none => ⟨String.mk l, 0, 1⟩

/-- Modelled from the spec: rendering of a structured identifier
(the key keeps its trailing separator, e.g. `rc.` + `3`). -/
def VIIdentifier.render (i : VIIdentifier) : List Char :=
  i.identifier.data ++ natToChars i.value

/-- Modelled from the spec: `SemVer.toString()` —
`prefix? + major.minor.patch + (-pre)* + (+build)?`. -/
def VISemVer.toString (v : VISemVer) : String :=
  String.mk
    ((v.pfx.map String.data).getD []
      ++ natToChars v.major ++ '.' :: natToChars v.minor ++ '.' :: natToChars v.patch
      ++ v.preReleases.foldr (fun i acc => '-' :: i.render ++ acc) []
      ++ Semver.optSuffix '+' v.build)

/-- Modelled from the spec: `SemVer.fromString(version, prefix)` —
prefix stripping and the `MAJOR.MINOR.PATCH(-ID)?(+ID)?` grammar, using
the same deterministic chunk grammar as the local implementation. -/
def VISemVer.fromString (pfx : Option String) (version : String) : Except String VISemVer := do
  let cs ← Semver.stripPfx version pfx
  match Semver.parseCore cs with
  | some parts =>
    .ok { pfx := pfx
          major := charsToNat parts.d1
          minor := charsToNat parts.d2
          patch := charsToNat parts.d3
          preReleases := match parts.pre with
            | none => []
            | some l => [parseIdent l]
          build := parts.bld.map (fun l => String.mk l) }
  | none => .error "Could not parse SemVer"

/-- Modelled from the spec: zero-padded month rendering of the `0M`
format atom. -/
def pad2 (m : Nat) : List Char :=
  if m < 10 then '0' :: natToChars m else natToChars m

/-- Modelled from the spec: `CalVer.toString()` for `YYYY.0M.MICRO` —
`prefix? + YYYY.0M.MICRO + (-modifier)*`. -/
def VICalVer.toString (v : VICalVer) : String :=
  String.mk
    ((v.pfx.map String.data).getD []
      ++ natToChars v.year ++ '.' :: pad2 v.month ++ '.' :: natToChars v.micro
      ++ v.modifiers.foldr (fun i acc => '-' :: i.render ++ acc) [])

/-- Modelled from the spec: the `(-modifier)*` tail of a calendar
version, fuel-structured on the input length. -/
def parseModsF : Nat → List Char → Option (List VIIdentifier)
  | _, [] => some []
  | 0, _ :: _ => none
  | fuel + 1, '-' :: rest =>
    let m := rest.takeWhile isIdChar
    let r := rest.dropWhile isIdChar
    if m.isEmpty then none
    else (parseModsF fuel r).map (fun ms => parseIdent m :: ms)
  | _ + 1, _ :: _ => none

/-- Modelled from the spec: the `YYYY.0M.MICRO(-modifier)*` grammar as a
parse into (year, month, micro, modifiers). -/
def calParseCore (cs : List Char) : Option (Nat × Nat × Nat × List VIIdentifier) := do
  let (d1, r1) ← chunkDigits cs
  let r1d ← expectDot r1
  let (d2, r2) ← chunkDigits r1d
  let r2d ← expectDot r2
  let (d3, r3) ← chunkDigits r2d
  let ms ← parseModsF r3.length r3
  some (charsToNat d1, charsToNat d2, charsToNat d3, ms)

/-- Modelled from the spec: `CalVer.fromString(format, version, prefix)`
for the `YYYY.0M.MICRO` format — year/month/micro integer parsing (month
range deliberately not enforced) followed by the modifier list. -/
def VICalVer.fromString (format : String) (pfx : Option String) (version : String) :
    Except String VICalVer := do
  let cs ← Semver.stripPfx version pfx
  match calParseCore cs with
  | some (y, m, mi, ms) =>
    .ok { format := format, pfx := pfx, year := y, month := m, micro := mi, modifiers := ms }
  | none => .error "Could not parse CalVer"

/-- Modelled from the spec: the Calendar increment sets year and month to
the injected current date, resets micro to 0 and clears the modifiers. -/
def VICalVer.incCalendar (clock : Clock) (v : VICalVer) : VICalVer :=
  { v with year := clock.year, month := clock.month, micro := 0, modifiers := [] }

/-- Modelled from the spec: the Micro increment adds one to micro and
clears the modifiers. -/
def VICalVer.incMicro (v : VICalVer) : VICalVer :=
  { v with micro := v.micro + 1, modifiers := [] }

/-- Modelled from the spec: the Modifier increment appends a fresh
`label.1` modifier when none exists, else increments the numeric suffix
of the existing one. -/
def VICalVer.incModifier (label : String) (v : VICalVer) : VICalVer :=
  match v.modifiers with
  | [] => { v with modifiers := [⟨label, 1, 1⟩] }
  | m :: rest => { v with modifiers := ⟨m.identifier, m.value + 1, m.length⟩ :: rest }

/-- Modelled from the spec: `CalVer.increment(type, label?)`; kinds of
the other scheme throw inside version-it. -/
def VICalVer.increment (clock : Clock) (v : VICalVer) (inc : Increment)
    (label : Option String) : Except String VICalVer :=
  match inc with
  | .CALENDAR => .ok (v.incCalendar clock)
  | .MICRO => .ok v.incMicro
  | .MODIFIER => .ok (v.incModifier (label.getD "hotfix"))
  | _ => .error "Unsupported CalVer increment"

/-- Modelled from the spec: the core SemVer increments reset all lesser
significant fields. -/
def VISemVer.incCore (v : VISemVer) : Increment → VISemVer
  | .MAJOR => { v with major := v.major + 1, minor := 0, patch := 0, preReleases := [], build := none }
  | .MINOR => { v with minor := v.minor + 1, patch := 0, preReleases := [], build := none }
  | _ => { v with patch := v.patch + 1, preReleases := [], build := none }

/-- Modelled from the spec: the PreRelease increment — absent: set to
`label.1` (default label `rc.`); present with the same label: increment
the numeric suffix; present with a different requested label: discarded
in favour of the requested label.  Build metadata is cleared. -/
def VISemVer.incPreRelease (label : Option String) (v : VISemVer) : VISemVer :=
  match v.preReleases with
  | [] => { v with preReleases := [⟨label.getD "rc.", 1, 1⟩], build := none }
  | i :: rest =>
    match label with
    | none => { v with preReleases := ⟨i.identifier, i.value + 1, i.length⟩ :: rest, build := none }
    | some l =>
      if i.identifier = l then
        { v with preReleases := ⟨i.identifier, i.value + 1, i.length⟩ :: rest, build := none }
      else { v with preReleases := [⟨l, 1, 1⟩], build := none }

/-- Modelled from the spec: the Build increment — absent: `build.1`;
present: increment the numeric suffix (a non-conforming build text
throws). -/
def VISemVer.incBuild (v : VISemVer) : Except String VISemVer :=
  match v.build with
  | none => .ok { v with build := some "build.1" }
  | some s =>
    match Semver.identKVChars s.data with
    | some (k, val) => .ok { v with build := some (k ++ natToStr (val + 1)) }
    | none => .error "Unable to bump build"

/-- Modelled from the spec: `SemVer.increment(type, label?)`; kinds of
the other scheme throw inside version-it. -/
def VISemVer.increment (v : VISemVer) (inc : Increment) (label : Option String) :
    Except String VISemVer :=
  match inc with
  | .MAJOR | .MINOR | .PATCH => .ok (v.incCore inc)
  | .PRERELEASE => .ok (v.incPreRelease label)
  | .BUILD => v.incBuild
  | _ => .error "Unsupported SemVer increment"

/-- Modelled from the spec: identifier-option comparison — a missing
identifier ranks above any present one, equal numeric values tie, else
numeric comparison. -/
def cmpIdOpt (a b : Option VIIdentifier) : Option Int :=
  match a, b with
  | none, some _ => some 1
  | some _, none => some (-1)
  | some x, some y =>
    if x.value = y.value then none
    else if x.value > y.value then some 1 else some (-1)
  | none, none => none

/-- Modelled from the spec: `SemVer.compareTo` — lexicographic numeric
core, then the pre-release identifier, then build as a final tie-break. -/
def VISemVer.compareTo (a b : VISemVer) : Int :=
  if a.major ≠ b.major then (if a.major > b.major then 1 else -1)
  else if a.minor ≠ b.minor then (if a.minor > b.minor then 1 else -1)
  else if a.patch ≠ b.patch then (if a.patch > b.patch then 1 else -1)
  else
    match cmpIdOpt a.preReleases.head? b.preReleases.head? with
    | some r => r
    | none =>
      match cmpIdOpt (a.build.map (fun s => parseIdent s.data)) (b.build.map (fun s => parseIdent s.data)) with
      | some r => r
      | none => 0

/-- Modelled from the spec: `SemVer.isGreaterThan`. -/
def VISemVer.isGreaterThan (a b : VISemVer) : Bool :=
  a.compareTo b > 0

/-- Modelled from the spec: element-wise modifier list comparison of
calendar versions (the reference notes its sorting of multi-modifier
versions as incorrect; the element-wise behaviour is preserved, not
repaired). -/
def cmpMods : List VIIdentifier → List VIIdentifier → Int
  | [], [] => 0
  | [], _ :: _ => 1
  | _ :: _, [] => -1
  | a :: as, b :: bs =>
    if a.value = b.value then cmpMods as bs
    else if a.value > b.value then 1 else -1

/-- Modelled from the spec: `CalVer.compareTo` — lexicographic on
(year, month, micro), then the modifier lists element-wise. -/
def VICalVer.compareTo (a b : VICalVer) : Int :=
  if a.year ≠ b.year then (if a.year > b.year then 1 else -1)
  else if a.month ≠ b.month then (if a.month > b.month then 1 else -1)
  else if a.micro ≠ b.micro then (if a.micro > b.micro then 1 else -1)
  else cmpMods a.modifiers b.modifiers

/-- Modelled from the spec: `CalVer.isGreaterThan`. -/
def VICalVer.isGreaterThan (a b : VICalVer) : Bool :=
  a.compareTo b > 0

/-- Modelled from the spec: the copy constructor
`new CalVer(version.format, version)` (value semantics — every field is
copied). -/
def copyCal (v : VICalVer) : VICalVer :=
  { format := v.format, pfx := v.pfx, year := v.year, month := v.month
    micro := v.micro, modifiers := v.modifiers }

/-- Modelled from the spec: the copy constructor `new SemVer(version)`
(value semantics — every field is copied). -/
def copySem (v : VISemVer) : VISemVer :=
  { pfx := v.pfx, major := v.major, minor := v.minor, patch := v.patch
    preReleases := v.preReleases, build := v.build }

end VersionIt

namespace Versioning

/-! ## Embedding of `src/versioning.ts` -/

open Branching VersionIt

/-- The `ConventionalCommit` records consumed by
`SemVerScheme.determineIncrementType` (classification results, so they
carry `isValid`). -/
structure ConvCommit where
  isValid : Bool
  breaking : Bool
  type : Option String
deriving DecidableEq, Repr

/-- The lowercased commit type
(`commit.type?.toLowerCase() ?? ""`). -/
def commitTypeOf (c : ConvCommit) : String :=
  (c.type.map String.toLower).getD ""

/-- Loop of `SemVerScheme.determineIncrementType` with the `feat`/`fix`
counters made explicit: invalid commits are skipped, a valid breaking
commit returns immediately based on the branch, otherwise the lowercased
types `feat`/`fix` are counted; release branches resolve any feat/fix
count to `PATCH`. -/
def detLoop (branch : BranchType) : List ConvCommit → Nat → Nat → Option Increment
  | [], featc, fixc =>
    if branch = .release ∧ (0 < featc ∨ 0 < fixc) then some .PATCH
    else if 0 < featc then some .MINOR
    else if 0 < fixc then some .PATCH
    else none
  | c :: rest, featc, fixc =>
    if !c.isValid then detLoop branch rest featc fixc
    else if c.breaking then some (if branch = .default then .MAJOR else .PATCH)
    else if commitTypeOf c = "feat" then detLoop branch rest (featc + 1) fixc
    else if commitTypeOf c = "fix" then detLoop branch rest featc (fixc + 1)
    else detLoop branch rest featc fixc

/-- `SemVerScheme.determineIncrementType(commits)` of
`src/versioning.ts` (the ambient `branching.getBranch().type` is passed
explicitly). -/
def determineIncrementType (branch : BranchType) (commits : List ConvCommit) :
    Option Increment :=
  detLoop branch commits 0 0

/-- A valid breaking commit. -/
def isValidBreaking (c : ConvCommit) : Bool :=
  c.isValid && c.breaking

/-- A valid commit of the given (lowercased) type. -/
def isValidOfType (s : String) (c : ConvCommit) : Bool :=
  c.isValid && (commitTypeOf c == s)

/-- The claim-shaped specification of
`SemVerScheme.determineIncrementType`: MAJOR (default branch) or PATCH
(release branch) when some valid commit is breaking; otherwise, over
valid commits with case-insensitive types, a release branch resolves any
feat/fix presence to PATCH, and the default branch yields MINOR on a
feat, else PATCH on a fix, else no increment. -/
def claimIncrementType (branch : BranchType) (commits : List ConvCommit) :
    Option Increment :=
  if commits.any isValidBreaking then
    some (if branch = .default then .MAJOR else .PATCH)
  else if branch = .release ∧ (commits.any (isValidOfType "feat") ∨ commits.any (isValidOfType "fix")) then
    some .PATCH
  else if commits.any (isValidOfType "feat") then some .MINOR
  else if commits.any (isValidOfType "fix") then some .PATCH
  else none

/-- The tagged union `Version = SemVer | CalVer`. -/
inductive Version
  | sem (v : VISemVer)
  | cal (v : VICalVer)
deriving DecidableEq, Repr

/-- The configuration values the first-revision `incrementVersion` reads
ad hoc (`core.getBooleanInput("prerelease")` and the version prefix used
by `createVersion`). -/
structure RunConfig where
  prerelease : Bool
  pfx : Option String
deriving DecidableEq, Repr

/-- The branch-derived pre-release label of the first revision
(`release: "rc"`, `default: "dev"`). -/
def branchLabel (branch : BranchType) : String :=
  if branch = .release then "rc" else "dev"

/-- First revision of `incrementVersion(version, incrementType)` of
`src/versioning.ts` (the single-increment revision with the `RELEASE`
keyword and the global `prerelease` flag):

* `RELEASE`, prerelease off: re-create the version from its string form
  with the configured prefix and clear the pre-release/modifier list;
* `RELEASE`, prerelease on: return the version unchanged;
* core bumps with prerelease on: apply the bump, then a
  PRERELEASE/MODIFIER increment with the branch label, keeping only the
  matching modifiers;
* core bumps with prerelease off: apply the bump;
* any other combination falls out of the `switch` and throws. -/
def incrementVersionR1 (cfg : RunConfig) (clock : Clock) (branch : BranchType)
    (version : Version) (inc : Increment) : Except String Version :=
  match version with
  | .cal v =>
    match inc with
    | .RELEASE =>
      if !cfg.prerelease then do
        let nv ← VICalVer.fromString "YYYY.0M.MICRO" cfg.pfx v.toString
        .ok (.cal { nv with modifiers := [] })
      else .ok (.cal v)
    | .CALENDAR | .MICRO =>
      if cfg.prerelease then do
        let m := branchLabel branch
        let nv1 ← v.increment clock inc none
        let nv2 ← nv1.increment clock .MODIFIER (some m)
        .ok (.cal { nv2 with modifiers := nv2.modifiers.filter (fun e => e.identifier == m) })
      else do
        let nv ← v.increment clock inc none
        .ok (.cal nv)
    | _ => .error "Cannot increment version of unknown type!"
  | .sem v =>
    match inc with
    | .RELEASE =>
      if !cfg.prerelease then do
        let nv ← VISemVer.fromString cfg.pfx v.toString
        .ok (.sem { nv with preReleases := [] })
      else .ok (.sem v)
    | .MAJOR | .MINOR | .PATCH =>
      if cfg.prerelease then do
        let m := branchLabel branch
        let nv1 ← v.increment inc none
        let nv2 ← nv1.increment .PRERELEASE (some m)
        .ok (.sem { nv2 with preReleases := nv2.preReleases.filter (fun e => e.identifier == m) })
      else do
        let nv ← v.increment inc none
        .ok (.sem nv)
    | _ => .error "Cannot increment version of unknown type!"

/-- The inner `incrementCalVer(version, incrementType, keepModifier)` of
the second-revision `incrementVersion`: a Calendar increment that leaves
year and month unchanged downgrades to a Micro increment (restoring the
modifiers when the previous step was a MODIFIER increment); a MODIFIER
increment on a modifier-free version forces `hotfix.1`. -/
def incrementCalVer (clock : Clock) (version : VICalVer) (inc : Increment)
    (keepModifier : Bool) : Except String VICalVer := do
  let newVersion ← version.increment clock inc none
  match inc with
  | .CALENDAR =>
    if newVersion.year = version.year ∧ newVersion.month = version.month then
      let nv2 := version.incMicro
      .ok (if keepModifier then { nv2 with modifiers := version.modifiers } else nv2)
    else .ok newVersion
  | .MODIFIER =>
    if version.modifiers.isEmpty then .ok { newVersion with modifiers := [⟨"hotfix", 1, 1⟩] }
    else .ok newVersion
  | _ => .ok newVersion

/-- The CalVer loop of the second-revision `incrementVersion`: the
increments are applied in order to the running copy, stopping early as
soon as the running result exceeds the original version. -/
def goCal (clock : Clock) (orig : VICalVer) :
    List Increment → Option Increment → VICalVer → Except String VICalVer
  | [], _, nv => .ok nv
  | inc :: rest, prev, nv => do
    let nv2 ← incrementCalVer clock nv inc (prev == some Increment.MODIFIER)
    if nv2.isGreaterThan orig then .ok nv2
    else goCal clock orig rest (some inc) nv2

/-- The inner `incrementSemVer(version, incrementType, keepMetadata)` of
the second-revision `incrementVersion`: a PRERELEASE step first forces
the branch label (`rc.`/`dev.`, value 0) unless the current head
pre-release already carries it, then applies the version-it increment;
`keepMetadata` restores the pre-release list of the previous step. -/
def incrementSemVer (branch : BranchType) (version : VISemVer) (inc : Increment)
    (keepMetadata : Bool) : Except String VISemVer := do
  let version :=
    if inc = .PRERELEASE then
      let m := if branch = .release then "rc." else "dev."
      if version.preReleases.isEmpty
          || !(((version.preReleases.head?.map VIIdentifier.identifier).getD "").startsWith m) then
        { version with preReleases := [⟨m, 0, 1⟩] }
      else version
    else version
  let newVersion ← version.increment inc none
  .ok (if keepMetadata then { newVersion with preReleases := version.preReleases } else newVersion)

/-- The SemVer loop of the second-revision `incrementVersion`
(`keepMetadata` holds when the previous step was PRERELEASE or BUILD). -/
def goSem (branch : BranchType) (orig : VISemVer) :
    List Increment → Option Increment → VISemVer → Except String VISemVer
  | [], _, nv => .ok nv
  | inc :: rest, prev, nv => do
    let nv2 ← incrementSemVer branch nv inc
      (prev == some Increment.PRERELEASE || prev == some Increment.BUILD)
    if nv2.isGreaterThan orig then .ok nv2
    else goSem branch orig rest (some inc) nv2

/-- Second revision of
`incrementVersion(version, incrementType | incrementType[])` of
`src/versioning.ts`: the version is first copied
(`new CalVer(version.format, version)` / `new SemVer(version)`), then the
increments are applied in order with the early-exit comparison against
the original. -/
def incrementVersion (clock : Clock) (branch : BranchType) (version : Version)
    (incs : List Increment) : Except String Version :=
  match version with
  | .cal v => (goCal clock v incs none (copyCal v)).map .cal
  | .sem v => (goSem branch v incs none (copySem v)).map .sem

/-- Allocation-instrumented form of the second-revision
`incrementVersion`, for the aliasing property: objects are modelled as an
address paired with their value.  Every return path of the source
returns a newly constructed object (the initial copy constructor or a
later `increment` result), never the input reference, so the result
always carries the fresh address. -/
def incrementVersionAlloc (fresh : Nat) (clock : Clock) (branch : BranchType)
    (obj : Nat × Version) (incs : List Increment) : Except String (Nat × Version) :=
  (incrementVersion clock branch obj.2 incs).map (fun v => (fresh, v))

end Versioning

/-- Rendering of an optional capture group behind its separator. -/
def optRender (sep : Char) : Option (List Char) → List Char
  | none => []
  | some l => sep :: l

/-- Rendering of the optional pre-release / build tail from its capture
groups (the inverse direction of `Semver.parseTail`). -/
def tailRender (p b : Option (List Char)) : List Char :=
  optRender '-' p ++ optRender '+' b

deriving instance DecidableEq for Except

/-! ## Lemmas about the decimal digit utilities -/

theorem charDigit_digitChar (d : Nat) (h : d < 10) : charDigit (Nat.digitChar d) = some d := by
  interval_cases d <;> rfl

theorem digitChar_of_charDigit {c : Char} {d : Nat} (h : charDigit c = some d) :
    Nat.digitChar d = c := by
  unfold charDigit at h
  split_ifs at h <;> (injection h with h; subst h; subst_vars; rfl)

theorem charDigit_lt {c : Char} {d : Nat} (h : charDigit c = some d) : d < 10 := by
  unfold charDigit at h
  split_ifs at h <;> (injection h with h; omega)

theorem isDigitChar_digitChar (d : Nat) (h : d < 10) : isDigitChar (Nat.digitChar d) = true := by
  simp [isDigitChar, charDigit_digitChar d h]

theorem natToCharsAux_acc (f : Nat) : ∀ (n : Nat) (acc : List Char),
    natToCharsAux f n acc = natToCharsAux f n [] ++ acc := by
  induction f with
  | zero => intro n acc; simp [natToCharsAux]
  | succ f ih =>
    intro n acc
    simp only [natToCharsAux]
    split
    · simp
    · rw [ih, ih (n / 10) [Nat.digitChar (n % 10)]]
      simp

theorem natToCharsAux_fuel (n : Nat) : ∀ (f g : Nat) (acc : List Char), n < f → n < g →
    natToCharsAux f n acc = natToCharsAux g n acc := by
  induction n using Nat.strong_induction_on with
  | _ n ih =>
    intro f g acc hf hg
    rcases f with _ | f
    · omega
    rcases g with _ | g
    · omega
    simp only [natToCharsAux]
    split
    · rfl
    · rename_i h
      have hd : n / 10 < n := Nat.div_lt_self (by omega) (by omega)
      exact ih (n / 10) hd f g _ (by omega) (by omega)

theorem natToChars_lt10 (n : Nat) (h : n < 10) : natToChars n = [Nat.digitChar n] := by
  simp [natToChars, natToCharsAux, h]

theorem natToCharsAux_step (f n : Nat) (acc : List Char) (h : ¬ n < 10) :
    natToCharsAux (f + 1) n acc = natToCharsAux f (n / 10) (Nat.digitChar (n % 10) :: acc) := by
  simp [natToCharsAux, h]

theorem natToChars_ge10 (n : Nat) (h : 10 ≤ n) :
    natToChars n = natToChars (n / 10) ++ [Nat.digitChar (n % 10)] := by
  have h1 : ¬ n < 10 := by omega
  have hd : n / 10 < n := Nat.div_lt_self (by omega) (by omega)
  calc natToChars n
      = natToCharsAux n (n / 10) [Nat.digitChar (n % 10)] := natToCharsAux_step n n [] h1
    _ = natToCharsAux (n / 10 + 1) (n / 10) [Nat.digitChar (n % 10)] :=
        natToCharsAux_fuel (n / 10) n (n / 10 + 1) _ hd (by omega)
    _ = natToCharsAux (n / 10 + 1) (n / 10) [] ++ [Nat.digitChar (n % 10)] :=
        natToCharsAux_acc _ _ _
    _ = natToChars (n / 10) ++ [Nat.digitChar (n % 10)] := rfl

theorem charsToNat_append_digit (cs : List Char) (c : Char) :
    charsToNat (cs ++ [c]) = 10 * charsToNat cs + (charDigit c).getD 0 := by
  simp [charsToNat, List.foldl_append]

theorem charsToNat_natToChars (n : Nat) : charsToNat (natToChars n) = n := by
  induction n using Nat.strong_induction_on with
  | _ n ih =>
    by_cases h : n < 10
    · rw [natToChars_lt10 n h]
      simp [charsToNat, charDigit_digitChar n h]
    · have h10 : 10 ≤ n := by omega
      rw [natToChars_ge10 n h10, charsToNat_append_digit]
      rw [ih (n / 10) (Nat.div_lt_self (by omega) (by omega))]
      rw [charDigit_digitChar (n % 10) (Nat.mod_lt _ (by omega))]
      simp only [Option.getD_some]
      omega

theorem natToCharsAux_digits (f : Nat) : ∀ (n : Nat) (acc : List Char),
    acc.all isDigitChar = true → (natToCharsAux f n acc).all isDigitChar = true := by
  induction f with
  | zero => intro n acc h; simp only [natToCharsAux]; exact h
  | succ f ih =>
    intro n acc h
    simp only [natToCharsAux]
    split
    · rename_i hn
      simp [List.all_cons, h, isDigitChar_digitChar n hn]
    · exact ih _ _ (by simp [List.all_cons, h, isDigitChar_digitChar (n % 10) (Nat.mod_lt _ (by omega))])

theorem natToChars_digits (n : Nat) : (natToChars n).all isDigitChar = true :=
  natToCharsAux_digits _ _ _ (by simp)

theorem natToCharsAux_ne_nil (f : Nat) : ∀ (n : Nat) (acc : List Char),
    acc ≠ [] → natToCharsAux f n acc ≠ [] := by
  induction f with
  | zero => intro n acc h; simpa [natToCharsAux]
  | succ f ih =>
    intro n acc h
    simp only [natToCharsAux]
    split
    · simp
    · exact ih _ _ (by simp)

theorem natToChars_ne_nil (n : Nat) : natToChars n ≠ [] := by
  unfold natToChars
  simp only [natToCharsAux]
  split
  · simp
  · exact natToCharsAux_ne_nil _ _ _ (by simp)

theorem foldl_digits_ge (cs : List Char) : ∀ a : Nat,
    a ≤ cs.foldl (fun a c => 10 * a + (charDigit c).getD 0) a := by
  induction cs with
  | nil => intro a; simp
  | cons c rest ih =>
    intro a
    simp only [List.foldl_cons]
    exact le_trans (by omega) (ih (10 * a + (charDigit c).getD 0))

theorem charsToNat_pos (cs : List Char) (hne : cs ≠ []) (hall : cs.all isDigitChar = true)
    (hd : cs.head? ≠ some '0') : 0 < charsToNat cs := by
  rcases cs with _ | ⟨c, rest⟩
  · exact absurd rfl hne
  have hc : isDigitChar c = true := by
    simp [List.all_cons] at hall
    exact hall.1
  rcases hv : charDigit c with _ | d
  · simp [isDigitChar, hv] at hc
  have hd0 : d ≠ 0 := by
    intro h0
    subst h0
    have : c = '0' := by
      have := digitChar_of_charDigit hv
      simpa [Nat.digitChar] using this.symm
    subst this
    simp at hd
  have hstep : charsToNat (c :: rest) = rest.foldl (fun a c => 10 * a + (charDigit c).getD 0) d := by
    simp [charsToNat, hv]
  rw [hstep]
  exact lt_of_lt_of_le (by omega) (foldl_digits_ge rest d)

theorem natToChars_charsToNat (cs : List Char) (hne : cs ≠ [])
    (hall : cs.all isDigitChar = true) (hcanon : cs = ['0'] ∨ cs.head? ≠ some '0') :
    natToChars (charsToNat cs) = cs := by
  induction cs using List.reverseRecOn with
  | nil => exact absurd rfl hne
  | append_singleton ds c ih =>
    have hsplit := hall
    rw [List.all_append, Bool.and_eq_true] at hsplit
    obtain ⟨hallds, hallc1⟩ := hsplit
    have hallc : isDigitChar c = true := by simpa using hallc1
    rcases hv : charDigit c with _ | d
    · simp [isDigitChar, hv] at hallc
    have hdlt : d < 10 := charDigit_lt hv
    by_cases hds : ds = []
    · subst hds
      simp only [List.nil_append]
      have h1 : charsToNat [c] = d := by simp [charsToNat, hv]
      rw [h1, natToChars_lt10 d hdlt, digitChar_of_charDigit hv]
    ·
      have hhead : ds.head? ≠ some '0' := by
        rcases hcanon with hc | hc
        · exfalso
          rcases ds with _ | ⟨d0, ds'⟩
          · exact hds rfl
          · have := congrArg List.length hc
            simp at this
        · rcases ds with _ | ⟨d0, ds'⟩
          · exact absurd rfl hds
          · simpa using hc
      have hpos : 0 < charsToNat ds := charsToNat_pos ds hds hallds hhead
      rw [charsToNat_append_digit, hv]
      simp only [Option.getD_some]
      have hge : 10 ≤ 10 * charsToNat ds + d := by omega
      rw [natToChars_ge10 _ hge]
      have hdiv : (10 * charsToNat ds + d) / 10 = charsToNat ds := by omega
      have hmod : (10 * charsToNat ds + d) % 10 = d := by omega
      rw [hdiv, hmod, digitChar_of_charDigit hv]
      rw [ih hds hallds (Or.inr hhead)]

/-! ## Lemmas about the chunk parsers -/

theorem takeWhile_append_not (p : Char → Bool) (y : Char) (ys : List Char) (hy : p y = false) :
    ∀ xs : List Char, (∀ x ∈ xs, p x = true) → (xs ++ y :: ys).takeWhile p = xs := by
  intro xs
  induction xs with
  | nil => intro _; simp [List.takeWhile_cons, hy]
  | cons x xs ih =>
    intro hall
    have hx : p x = true := hall x (by simp)
    simp only [List.cons_append, List.takeWhile_cons, hx, if_true]
    rw [ih (fun a ha => hall a (by simp [ha]))]

theorem dropWhile_append_not (p : Char → Bool) (y : Char) (ys : List Char) (hy : p y = false) :
    ∀ xs : List Char, (∀ x ∈ xs, p x = true) → (xs ++ y :: ys).dropWhile p = y :: ys := by
  intro xs
  induction xs with
  | nil => intro _; simp [List.dropWhile_cons, hy]
  | cons x xs ih =>
    intro hall
    have hx : p x = true := hall x (by simp)
    simp only [List.cons_append, List.dropWhile_cons, hx, if_true]
    exact ih (fun a ha => hall a (by simp [ha]))

theorem takeWhile_all (p : Char → Bool) : ∀ xs : List Char, (∀ x ∈ xs, p x = true) →
    xs.takeWhile p = xs := by
  intro xs
  induction xs with
  | nil => intro _; rfl
  | cons x xs ih =>
    intro hall
    have hx : p x = true := hall x (by simp)
    simp only [List.takeWhile_cons, hx, if_true]
    rw [ih (fun a ha => hall a (by simp [ha]))]

theorem dropWhile_all (p : Char → Bool) : ∀ xs : List Char, (∀ x ∈ xs, p x = true) →
    xs.dropWhile p = [] := by
  intro xs
  induction xs with
  | nil => intro _; rfl
  | cons x xs ih =>
    intro hall
    have hx : p x = true := hall x (by simp)
    simp only [List.dropWhile_cons, hx, if_true]
    exact ih (fun a ha => hall a (by simp [ha]))

theorem chunkDigits_sound {cs d r : List Char} (h : chunkDigits cs = some (d, r)) :
    cs = d ++ r ∧ d ≠ [] ∧ d.all isDigitChar = true := by
  unfold chunkDigits at h
  dsimp only at h
  split_ifs at h with he
  injection h with h
  injection h with h1 h2
  subst h1
  subst h2
  refine ⟨(List.takeWhile_append_dropWhile _ _).symm, ?_, ?_⟩
  · simpa [List.isEmpty_iff] using he
  · rw [List.all_eq_true]
    intro x hx
    exact List.mem_takeWhile_imp hx

theorem chunkId_sound {cs d r : List Char} (h : chunkId cs = some (d, r)) :
    cs = d ++ r ∧ d ≠ [] ∧ d.all isIdChar = true := by
  unfold chunkId at h
  dsimp only at h
  split_ifs at h with he
  injection h with h
  injection h with h1 h2
  subst h1
  subst h2
  refine ⟨(List.takeWhile_append_dropWhile _ _).symm, ?_, ?_⟩
  · simpa [List.isEmpty_iff] using he
  · rw [List.all_eq_true]
    intro x hx
    exact List.mem_takeWhile_imp hx

theorem chunkDigits_append {d r : List Char} (hne : d ≠ []) (hall : d.all isDigitChar = true)
    (hr : ∀ c, r.head? = some c → isDigitChar c = false) :
    chunkDigits (d ++ r) = some (d, r) := by
  have hall2 : ∀ x ∈ d, isDigitChar x = true := by
    rw [List.all_eq_true] at hall
    exact hall
  unfold chunkDigits
  rcases r with _ | ⟨y, ys⟩
  · rw [List.append_nil, takeWhile_all _ d hall2, dropWhile_all _ d hall2]
    simp [List.isEmpty_iff, hne]
  · rw [takeWhile_append_not _ y ys (hr y rfl) d hall2,
      dropWhile_append_not _ y ys (hr y rfl) d hall2]
    simp [List.isEmpty_iff, hne]

theorem chunkId_append {d r : List Char} (hne : d ≠ []) (hall : d.all isIdChar = true)
    (hr : ∀ c, r.head? = some c → isIdChar c = false) :
    chunkId (d ++ r) = some (d, r) := by
  have hall2 : ∀ x ∈ d, isIdChar x = true := by
    rw [List.all_eq_true] at hall
    exact hall
  unfold chunkId
  rcases r with _ | ⟨y, ys⟩
  · rw [List.append_nil, takeWhile_all _ d hall2, dropWhile_all _ d hall2]
    simp [List.isEmpty_iff, hne]
  · rw [takeWhile_append_not _ y ys (hr y rfl) d hall2,
      dropWhile_append_not _ y ys (hr y rfl) d hall2]
    simp [List.isEmpty_iff, hne]

theorem expectDot_sound : ∀ {r r2 : List Char}, expectDot r = some r2 → r = '.' :: r2 := by
  intro r r2 h
  match r with
  | [] => exact Option.noConfusion h
  | c :: cs =>
    by_cases hc : c = '.'
    · subst hc
      simp only [expectDot] at h
      injection h with h
      rw [h]
    · exfalso
      have : expectDot (c :: cs) = none := by
        unfold expectDot
        split
        · rename_i heq
          injection heq with h1 h2
          exact (hc h1).elim
        · rfl
      rw [this] at h
      exact Option.noConfusion h

theorem parseTail_sound : ∀ {r : List Char} {pb : Option (List Char) × Option (List Char)},
    Semver.parseTail r = some pb →
    r = tailRender pb.1 pb.2
    ∧ (∀ l, pb.1 = some l → l ≠ [] ∧ l.all isIdChar = true)
    ∧ (∀ l, pb.2 = some l → l ≠ [] ∧ l.all isIdChar = true) := by
  intro r pb h
  unfold Semver.parseTail at h
  split at h
  · injection h with h
    subst h
    refine ⟨rfl, ?_, ?_⟩ <;> (intro l hl; exact Option.noConfusion hl)
  · rename_i rest
    rcases hc : chunkId rest with _ | ⟨pl, rr⟩
    · rw [hc] at h
      exact Option.noConfusion h
    · rw [hc] at h
      dsimp only at h
      obtain ⟨hrest, hpne, hpall⟩ := chunkId_sound hc
      split at h
      · injection h with h
        subst h
        subst hrest
        refine ⟨by simp [tailRender, optRender], ?_, ?_⟩
        · intro l hl
          injection hl with hl
          subst hl
          exact ⟨hpne, hpall⟩
        · intro l hl
          exact Option.noConfusion hl
      · rename_i rest2
        rcases hc2 : chunkId rest2 with _ | ⟨bl, r2⟩
        · rw [hc2] at h
          exact Option.noConfusion h
        · rw [hc2] at h
          dsimp only at h
          obtain ⟨hrest2, hbne, hball⟩ := chunkId_sound hc2
          split_ifs at h with hemp
          · injection h with h
            subst h
            have hr2 : r2 = [] := by simpa [List.isEmpty_iff] using hemp
            subst hr2
            subst hrest
            subst hrest2
            refine ⟨by simp [tailRender, optRender], ?_, ?_⟩
            · intro l hl
              injection hl with hl
              subst hl
              exact ⟨hpne, hpall⟩
            · intro l hl
              injection hl with hl
              subst hl
              exact ⟨hbne, hball⟩
      · exact Option.noConfusion h
  · rename_i rest
    rcases hc : chunkId rest with _ | ⟨bl, r2⟩
    · rw [hc] at h
      exact Option.noConfusion h
    · rw [hc] at h
      dsimp only at h
      obtain ⟨hrest, hbne, hball⟩ := chunkId_sound hc
      split_ifs at h with hemp
      · injection h with h
        subst h
        have hr2 : r2 = [] := by simpa [List.isEmpty_iff] using hemp
        subst hr2
        subst hrest
        refine ⟨by simp [tailRender, optRender], ?_, ?_⟩
        · intro l hl
          exact Option.noConfusion hl
        · intro l hl
          injection hl with hl
          subst hl
          exact ⟨hbne, hball⟩
  · exact Option.noConfusion h

theorem stringMk_data (s : String) : String.mk s.data = s := by
  cases s
  rfl

theorem parseCore_sound {cs : List Char} {parts : Semver.Parts}
    (h : Semver.parseCore cs = some parts) :
    cs = parts.d1 ++ ('.' :: (parts.d2 ++ ('.' :: (parts.d3 ++ tailRender parts.pre parts.bld))))
    ∧ (parts.d1 ≠ [] ∧ parts.d1.all isDigitChar = true)
    ∧ (parts.d2 ≠ [] ∧ parts.d2.all isDigitChar = true)
    ∧ (parts.d3 ≠ [] ∧ parts.d3.all isDigitChar = true)
    ∧ (∀ l, parts.pre = some l → l ≠ [] ∧ l.all isIdChar = true)
    ∧ (∀ l, parts.bld = some l → l ≠ [] ∧ l.all isIdChar = true) := by
  unfold Semver.parseCore at h
  simp only [bind, Option.bind_eq_some] at h
  obtain ⟨⟨d1, r1⟩, h1, h⟩ := h
  obtain ⟨r1d, hd1, h⟩ := h
  obtain ⟨⟨d2, r2⟩, h2, h⟩ := h
  obtain ⟨r2d, hd2, h⟩ := h
  obtain ⟨⟨d3, r3⟩, h3, h⟩ := h
  obtain ⟨⟨p, b⟩, ht, h⟩ := h
  injection h with h
  subst h
  obtain ⟨hcs1, hne1, hall1⟩ := chunkDigits_sound h1
  obtain ⟨hcs2, hne2, hall2⟩ := chunkDigits_sound h2
  obtain ⟨hcs3, hne3, hall3⟩ := chunkDigits_sound h3
  obtain ⟨htail, hp, hb⟩ := parseTail_sound ht
  have e1 := expectDot_sound hd1
  have e2 := expectDot_sound hd2
  dsimp only at e1 e2 htail hp hb ⊢
  refine ⟨?_, ⟨hne1, hall1⟩, ⟨hne2, hall2⟩, ⟨hne3, hall3⟩, hp, hb⟩
  rw [hcs1, e1, hcs2, e2, hcs3, htail]

theorem parseCore_render (a b c : Nat) (t : List Char)
    (ht : ∀ ch, t.head? = some ch → isDigitChar ch = false) :
    Semver.parseCore (natToChars a ++ ('.' :: (natToChars b ++ ('.' :: (natToChars c ++ t))))) =
      (Semver.parseTail t).map (fun pb => ⟨natToChars a, natToChars b, natToChars c, pb.1, pb.2⟩) := by
  unfold Semver.parseCore
  rw [chunkDigits_append (natToChars_ne_nil a) (natToChars_digits a)
    (fun ch hch => by injection hch with hch; subst hch; decide)]
  simp only [bind, Option.some_bind]
  rw [show expectDot ('.' :: (natToChars b ++ ('.' :: (natToChars c ++ t)))) =
      some (natToChars b ++ ('.' :: (natToChars c ++ t))) from rfl]
  simp only [Option.some_bind]
  rw [chunkDigits_append (natToChars_ne_nil b) (natToChars_digits b)
    (fun ch hch => by injection hch with hch; subst hch; decide)]
  simp only [Option.some_bind]
  rw [show expectDot ('.' :: (natToChars c ++ t)) = some (natToChars c ++ t) from rfl]
  simp only [Option.some_bind]
  rw [chunkDigits_append (natToChars_ne_nil c) (natToChars_digits c) ht]
  simp only [Option.some_bind]
  rcases hpt : Semver.parseTail t with _ | ⟨p, b⟩
  · rfl
  · rfl

theorem parseTail_render_build (bl : List Char) (hne : bl ≠ [])
    (hall : bl.all isIdChar = true) :
    Semver.parseTail ('+' :: bl) = some (none, some bl) := by
  have hc : chunkId bl = some (bl, []) := by
    have h2 := chunkId_append (d := bl) (r := []) hne hall (fun ch hch => by cases hch)
    rwa [List.append_nil] at h2
  simp [Semver.parseTail, hc]

theorem canonicalChunk_elim {d : List Char} (h : Semver.canonicalChunk d = true) :
    d = ['0'] ∨ d.head? ≠ some '0' := by
  simpa only [Semver.canonicalChunk, Bool.or_eq_true, decide_eq_true_eq] using h

theorem optSuffix_mk (sep : Char) (o : Option (List Char)) (ho : ∀ l, o = some l → l ≠ []) :
    Semver.optSuffix sep (o.map (fun l => String.mk l)) = optRender sep o := by
  rcases o with _ | l
  · rfl
  · have hne := ho l rfl
    dsimp [Semver.optSuffix, optRender]
    rw [if_neg]
    simpa [List.isEmpty_iff] using hne

theorem stripPfx_sound {version : String} {pfx : Option String} {cs : List Char}
    (h : Semver.stripPfx version pfx = .ok cs) :
    version.data = (pfx.map String.data).getD [] ++ cs := by
  rcases pfx with _ | p
  · replace h : version.data = cs := by simpa [Semver.stripPfx] using h
    subst h
    simp
  · simp only [Semver.stripPfx] at h
    split_ifs at h with hpre
    injection h with h
    subst h
    obtain ⟨t, htt⟩ := List.isPrefixOf_iff_prefix.mp hpre
    have hd : List.drop p.data.length version.data = t := by
      rw [← htt, List.drop_left]
    rw [hd]
    exact htt.symm

/-- C4 (amended): for every version text accepted by `SemVer.fromString`
whose major, minor and patch components are written without superfluous
leading zeros, `fromString` followed by `toString` is the identity,
preserving the prefix, pre-release identifier and build metadata exactly.
(The unrestricted claim fails: `parseInt` accepts leading zeros that
`toString` does not reproduce, see the counterexample.) -/
theorem c4_roundtrip_amended (version : String) (pfx : Option String) (v : Semver.SemVer)
    (hparse : Semver.SemVer.fromString version pfx = .ok v)
    (hcanon : Semver.canonicalNumerals version pfx = true) :
    v.toString = version := by
  unfold Semver.SemVer.fromString at hparse
  unfold Semver.canonicalNumerals at hcanon
  rcases hs : Semver.stripPfx version pfx with e | cs
  · rw [hs] at hparse
    simp only [bind, Except.bind] at hparse
    exact Except.noConfusion hparse
  · rw [hs] at hparse hcanon
    simp only [bind, Except.bind] at hparse
    dsimp only at hcanon
    rcases hp : Semver.parseCore cs with _ | parts
    · rw [hp] at hparse
      exact Except.noConfusion hparse
    · rw [hp] at hparse hcanon
      dsimp only at hparse hcanon
      injection hparse with hparse
      subst hparse
      rw [Bool.and_eq_true, Bool.and_eq_true] at hcanon
      obtain ⟨⟨hc1, hc2⟩, hc3⟩ := hcanon
      obtain ⟨hcs, ⟨hne1, hall1⟩, ⟨hne2, hall2⟩, ⟨hne3, hall3⟩, hp1, hb1⟩ := parseCore_sound hp
      have r1 := natToChars_charsToNat parts.d1 hne1 hall1 (canonicalChunk_elim hc1)
      have r2 := natToChars_charsToNat parts.d2 hne2 hall2 (canonicalChunk_elim hc2)
      have r3 := natToChars_charsToNat parts.d3 hne3 hall3 (canonicalChunk_elim hc3)
      have hvd := stripPfx_sound hs
      unfold Semver.SemVer.toString Semver.ofParts
      conv_rhs => rw [← stringMk_data version]
      apply congrArg String.mk
      dsimp only
      rw [r1, r2, r3,
        optSuffix_mk '-' parts.pre (fun l hl => (hp1 l hl).1),
        optSuffix_mk '+' parts.bld (fun l hl => (hb1 l hl).1),
        hvd, hcs]
      simp [tailRender, List.append_assoc]


/-- C4 counterexample: the text `1.0.00` is accepted by
`SemVer.fromString` but `toString` renders it back as `1.0.0`, so the
unrestricted round-trip claim is false. -/
theorem c4_roundtrip_counterexample :
    (Semver.SemVer.fromString "1.0.00" none).map Semver.SemVer.toString = .ok "1.0.0"
    ∧ "1.0.0" ≠ "1.0.00" := by
  decide

/-- C4 witness: a concrete canonical text round-trips through the
amended theorem. -/
theorem c4_roundtrip_amended_witness :
    Semver.SemVer.fromString "v1.20.3-rc.1+build.7" (some "v") =
      .ok ⟨some "v", 1, 20, 3, some "rc.1", some "build.7"⟩
    ∧ Semver.canonicalNumerals "v1.20.3-rc.1+build.7" (some "v") = true
    ∧ Semver.SemVer.toString ⟨some "v", 1, 20, 3, some "rc.1", some "build.7"⟩ =
        "v1.20.3-rc.1+build.7" :=
  ⟨by decide, by decide,
    c4_roundtrip_amended "v1.20.3-rc.1+build.7" (some "v") _ (by decide) (by decide)⟩

/-- C2: for every SemVer value and every core increment kind
(major, minor, patch), the result of `bump` is strictly greater than the
input under the `sortSemVer` comparator (`compareTo` ordering). -/
theorem c2_bump_strictly_increases (v : Semver.SemVer) (k : Semver.BumpType)
    (hk : k = .major ∨ k = .minor ∨ k = .patch) (w : Semver.SemVer)
    (hw : Semver.SemVer.bump v k = .ok w) :
    Semver.sortSemVer w v = 1 := by
  rcases hk with h | h | h
  · subst h
    simp only [Semver.SemVer.bump] at hw
    injection hw with hw
    subst hw
    have h1 : v.major + 1 ≠ v.major := by omega
    have h2 : v.major + 1 > v.major := by omega
    simp [Semver.sortSemVer, h1, h2]
  · subst h
    simp only [Semver.SemVer.bump] at hw
    injection hw with hw
    subst hw
    have h1 : v.minor + 1 ≠ v.minor := by omega
    have h2 : v.minor + 1 > v.minor := by omega
    simp [Semver.sortSemVer, h1, h2]
  · subst h
    simp only [Semver.SemVer.bump] at hw
    injection hw with hw
    subst hw
    have h1 : v.patch + 1 ≠ v.patch := by omega
    have h2 : v.patch + 1 > v.patch := by omega
    simp [Semver.sortSemVer, h1, h2]

/-- C2 witness: bumping the major of a concrete version yields a
strictly greater version. -/
theorem c2_bump_strictly_increases_witness :
    Semver.SemVer.bump ⟨none, 1, 2, 3, some "rc.1", none⟩ .major =
      .ok ⟨none, 2, 0, 0, none, none⟩
    ∧ Semver.sortSemVer ⟨none, 2, 0, 0, none, none⟩ ⟨none, 1, 2, 3, some "rc.1", none⟩ = 1 :=
  ⟨by decide,
    c2_bump_strictly_increases ⟨none, 1, 2, 3, some "rc.1", none⟩ .major (Or.inl rfl)
      ⟨none, 2, 0, 0, none, none⟩ (by decide)⟩

/-- C3 counterexample: for identifiers with differing keys and differing
numeric values the comparison is *not* unordered/equal — `rc.1` against
`dev.2` compares by numeric value alone and yields `-1`. -/
theorem c3_cross_key_counterexample :
    Semver.sortIdentifier (some "rc.1") (some "dev.2") = some (-1) := by
  decide

/-- C3 (amended): if exactly one side has a numeric value, the side
without one is greater; if both are absent the result is
unordered/equal; if both are present with equal numeric value (in
particular with equal keys, or with differing keys such as `rc.1` vs
`dev.1`) the result is unordered/equal; and if both are present with
differing numeric values they compare by numeric value alone, regardless
of their keys. -/
theorem c3_sortIdentifier_amended (a b : Option String) :
    (Semver.identifierKeyValue a = none → Semver.identifierKeyValue b = none →
      Semver.sortIdentifier a b = none)
    ∧ (∀ kb, Semver.identifierKeyValue a = none → Semver.identifierKeyValue b = some kb →
      Semver.sortIdentifier a b = some 1)
    ∧ (∀ ka, Semver.identifierKeyValue a = some ka → Semver.identifierKeyValue b = none →
      Semver.sortIdentifier a b = some (-1))
    ∧ (∀ ka kb, Semver.identifierKeyValue a = some ka → Semver.identifierKeyValue b = some kb →
      ((ka.2 = kb.2 → Semver.sortIdentifier a b = none)
        ∧ (ka.2 ≠ kb.2 →
          Semver.sortIdentifier a b = (if ka.2 > kb.2 then some 1 else some (-1))))) := by
  refine ⟨?_, ?_, ?_, ?_⟩
  · intro h1 h2
    simp [Semver.sortIdentifier, h1, h2]
  · intro kb h1 h2
    simp [Semver.sortIdentifier, h1, h2]
  · intro ka h1 h2
    simp [Semver.sortIdentifier, h1, h2]
  · intro ka kb h1 h2
    constructor
    · intro he
      simp [Semver.sortIdentifier, h1, h2, he]
    · intro hne
      simp [Semver.sortIdentifier, h1, h2, hne]

/-- C3 witness: equal numeric values with differing keys are
unordered/equal; differing numeric values compare numerically. -/
theorem c3_sortIdentifier_amended_witness :
    Semver.sortIdentifier (some "rc.1") (some "dev.1") = none
    ∧ Semver.sortIdentifier (some "rc.2") (some "dev.1") =
        (if (2 : Nat) > 1 then some 1 else some (-1)) := by
  constructor
  · exact ((c3_sortIdentifier_amended (some "rc.1") (some "dev.1")).2.2.2
      ("rc.", 1) ("dev.", 1) (by decide) (by decide)).1 rfl
  · exact ((c3_sortIdentifier_amended (some "rc.2") (some "dev.1")).2.2.2
      ("rc.", 2) ("dev.", 1) (by decide) (by decide)).2 (by decide)

/-- C7: sorting the thirteen-element version list of the sort test by
`sortSemVer` (stable, as `Array.prototype.sort` is) yields exactly the
expected order. -/
theorem c7_sort_concrete :
    (["1.0.0-rc.1+build.1", "0.1.0", "2.0.0+random", "1.0.0", "0.1.1", "1.0.0-rc.1",
      "0.0.1", "0.1.1-rc.1", "0.2.0", "1.0.0-rc.3", "1.0.0", "1.0.0-rc.1+build.2",
      "1.0.0-rc.2"].mapM
        (fun s => (Semver.SemVer.fromString s none).toOption)).map
      (fun vs => (Semver.sortByCmp Semver.sortSemVer vs).map Semver.SemVer.toString) =
    some ["0.0.1", "0.1.0", "0.1.1-rc.1", "0.1.1", "0.2.0", "1.0.0-rc.1+build.1",
      "1.0.0-rc.1+build.2", "1.0.0-rc.1", "1.0.0-rc.2", "1.0.0-rc.3", "1.0.0", "1.0.0",
      "2.0.0+random"] := by
  decide

theorem detLoop_spec (branch : Branching.BranchType) :
    ∀ (cs : List Versioning.ConvCommit) (featc fixc : Nat),
    Versioning.detLoop branch cs featc fixc =
      (if cs.any Versioning.isValidBreaking then
        some (if branch = .default then .MAJOR else .PATCH)
      else if branch = .release ∧
          (0 < featc ∨ 0 < fixc ∨ cs.any (Versioning.isValidOfType "feat")
            ∨ cs.any (Versioning.isValidOfType "fix")) then
        some .PATCH
      else if 0 < featc ∨ cs.any (Versioning.isValidOfType "feat") then some .MINOR
      else if 0 < fixc ∨ cs.any (Versioning.isValidOfType "fix") then some .PATCH
      else none) := by
  intro cs
  induction cs with
  | nil =>
    intro featc fixc
    simp [Versioning.detLoop]
  | cons c rest ih =>
    intro featc fixc
    by_cases hv : c.isValid = true
    · by_cases hb : c.breaking = true
      · simp [Versioning.detLoop, hv, hb, Versioning.isValidBreaking, List.any_cons]
      · by_cases hf : Versioning.commitTypeOf c = "feat"
        · simp [Versioning.detLoop, hv, hb, hf, ih, List.any_cons,
            Versioning.isValidBreaking, Versioning.isValidOfType]
        · by_cases hx : Versioning.commitTypeOf c = "fix"
          · simp [Versioning.detLoop, hv, hb, hf, hx, ih, List.any_cons,
              Versioning.isValidBreaking, Versioning.isValidOfType]
          · simp [Versioning.detLoop, hv, hb, hf, hx, ih, List.any_cons,
              Versioning.isValidBreaking, Versioning.isValidOfType]
    · have hv2 : c.isValid = false := by simpa using hv
      simp [Versioning.detLoop, hv2, ih, List.any_cons,
        Versioning.isValidBreaking, Versioning.isValidOfType]

/-- C1: `SemVerScheme.determineIncrementType` returns MAJOR (default
branch) or PATCH (release branch) when some valid commit is breaking;
otherwise, counting `feat` and `fix` case-insensitively over valid
commits only, a release branch resolves any feat/fix presence to PATCH,
and the default branch yields MINOR on a feat, else PATCH on a fix, else
no increment. -/
theorem c1_determineIncrementType (branch : Branching.BranchType)
    (commits : List Versioning.ConvCommit) :
    Versioning.determineIncrementType branch commits =
      Versioning.claimIncrementType branch commits := by
  unfold Versioning.determineIncrementType Versioning.claimIncrementType
  rw [detLoop_spec]
  simp

/-- C10: for a ref whose name (after stripping `refs/heads/`) is not the
default branch, `getBranch` yields a release branch exactly when the name
splits on `/` into `["release", m]` (with modifier `m`), and throws the
`Invalid branch name` error for every other non-default name. -/
theorem c10_getBranch (ref : String) (db : Option String)
    (h : db ≠ some (Branching.branchNameOf ref)) :
    Branching.getBranch ref db = Branching.claimBranch (Branching.branchNameOf ref) := by
  unfold Branching.getBranch Branching.claimBranch
  rw [if_neg (fun hh => h hh.symm)]
  rcases hsp : Branching.splitSlash (Branching.branchNameOf ref) with _ | ⟨a, _ | ⟨b, _ | ⟨c, rest⟩⟩⟩
  · simp
  · simp
  · by_cases ha : a = "release"
    · subst ha
      simp
    · rw [if_pos (Or.inr (by simp [ha]))]
      split
      · rename_i m heq
        injection heq with h1 h2
        exact absurd h1 ha
      · rfl
  · rw [if_pos (Or.inl (by simp))]
    split
    · rename_i m heq
      injection heq with h1 h2
      subst h1
      injection h2 with h2 h3
      exact absurd h3.symm (by simp)
    · rfl

/-- C10 witness: `refs/heads/release/1.0` with default branch `main`
resolves to a release branch with modifier `1.0`. -/
theorem c10_getBranch_witness :
    Branching.getBranch "refs/heads/release/1.0" (some "main") =
      Branching.claimBranch (Branching.branchNameOf "refs/heads/release/1.0")
    ∧ Branching.getBranch "refs/heads/release/1.0" (some "main") =
        .ok ⟨.release, some "1.0"⟩ :=
  ⟨c10_getBranch "refs/heads/release/1.0" (some "main") (by decide), by decide⟩

/-- C8: `generateChangelog` renders the `What\x27s Changed` header and
then, for each configured category with at least one matching commit, a
`###` heading followed by one bullet per matching commit with the
description capitalised; categories with zero matching commits are
omitted (they contribute neither heading nor bullets to the joined
output). -/
theorem c8_generateChangelog (cfg : Changelog.Config) (commits : List Action.CCommit) :
    Changelog.generateChangelog cfg commits = Changelog.claimChangelog cfg commits := by
  unfold Changelog.generateChangelog Changelog.claimChangelog
  dsimp only
  congr 1
  congr 1
  apply List.map_congr_left
  intro cat hcat
  rcases hfil : commits.filter
      (Changelog.commitMatches (Changelog.getConfiguration cfg) cat) with _ | ⟨c0, cs⟩ <;>
    simp [Changelog.categoryBlock, hfil]

/-- C5: for every calendar version, a CALENDAR increment through
`incrementVersion` while the injected clock still reads the same year
and month does not return the calendar tuple unchanged but downgrades to
a MICRO increment (micro + 1, modifiers cleared). -/
theorem c5_calendar_same_month (clock : VersionIt.Clock) (branch : Branching.BranchType)
    (v : VersionIt.VICalVer) (hy : clock.year = v.year) (hm : clock.month = v.month) :
    Versioning.incrementVersion clock branch (.cal v) [.CALENDAR] =
      .ok (.cal { v with micro := v.micro + 1, modifiers := [] }) := by
  unfold Versioning.incrementVersion
  have hcopy : VersionIt.copyCal v = v := rfl
  simp [Versioning.goCal, Versioning.incrementCalVer, VersionIt.VICalVer.increment,
    VersionIt.VICalVer.incCalendar, VersionIt.VICalVer.incMicro, hcopy, hy, hm,
    bind, Except.bind, Except.map]

/-- C5 witness: incrementing `2023.06.3` via CALENDAR while the clock
reads June 2023 yields `2023.06.4`, not `2023.07.0`. -/
theorem c5_calendar_same_month_witness :
    Versioning.incrementVersion ⟨2023, 6⟩ .default
        (.cal ⟨"YYYY.0M.MICRO", none, 2023, 6, 3, []⟩) [.CALENDAR] =
      .ok (.cal ⟨"YYYY.0M.MICRO", none, 2023, 6, 4, []⟩)
    ∧ VersionIt.VICalVer.toString ⟨"YYYY.0M.MICRO", none, 2023, 6, 4, []⟩ = "2023.06.4"
    ∧ VersionIt.VICalVer.toString ⟨"YYYY.0M.MICRO", none, 2023, 6, 4, []⟩ ≠ "2023.07.0" :=
  ⟨c5_calendar_same_month ⟨2023, 6⟩ .default ⟨"YYYY.0M.MICRO", none, 2023, 6, 3, []⟩ rfl rfl,
    by decide, by decide⟩

/-- C9: with an empty increment list, the second-revision
`incrementVersion` returns a version every field of which equals the
input (the initial copy constructor), at a fresh object address distinct
from the input object. -/
theorem c9_empty_increments (fresh addr : Nat) (clock : VersionIt.Clock)
    (branch : Branching.BranchType) (v : Versioning.Version) (h : fresh ≠ addr) :
    Versioning.incrementVersionAlloc fresh clock branch (addr, v) [] = .ok (fresh, v)
    ∧ fresh ≠ addr := by
  refine ⟨?_, h⟩
  unfold Versioning.incrementVersionAlloc Versioning.incrementVersion
  rcases v with v | v
  · simp [Versioning.goSem, VersionIt.copySem, Except.map]
  · simp [Versioning.goCal, VersionIt.copyCal, Except.map]

/-- C9 witness: a concrete empty-list increment returns an equal-valued
version at the fresh address. -/
theorem c9_empty_increments_witness :
    Versioning.incrementVersionAlloc 1 ⟨2023, 6⟩ .default
        (0, .sem ⟨none, 1, 2, 3, [], none⟩) [] = .ok (1, .sem ⟨none, 1, 2, 3, [], none⟩)
    ∧ (1 : Nat) ≠ 0 :=
  c9_empty_increments 1 0 ⟨2023, 6⟩ .default (.sem ⟨none, 1, 2, 3, [], none⟩) (by decide)

theorem stripPfx_render (s : String) (pfx : Option String) (rest : List Char)
    (h : s.data = (pfx.map String.data).getD [] ++ rest) :
    Semver.stripPfx s pfx = .ok rest := by
  rcases pfx with _ | p
  · have h2 : s.data = rest := h
    simp only [Semver.stripPfx]
    rw [h2]
  · have h2 : s.data = p.data ++ rest := h
    simp only [Semver.stripPfx]
    have hp : p.data.isPrefixOf s.data = true := by
      rw [h2]
      exact List.isPrefixOf_iff_prefix.mpr ⟨rest, rfl⟩
    rw [if_pos hp, h2, List.drop_left]

theorem pad2_ne_nil (m : Nat) : VersionIt.pad2 m ≠ [] := by
  unfold VersionIt.pad2
  split
  · simp
  · exact natToChars_ne_nil m

theorem pad2_digits (m : Nat) : (VersionIt.pad2 m).all isDigitChar = true := by
  unfold VersionIt.pad2
  split
  · simp [List.all_cons, natToChars_digits m]
    decide
  · exact natToChars_digits m

theorem charsToNat_cons_zero (xs : List Char) : charsToNat ('0' :: xs) = charsToNat xs := by
  simp [charsToNat, charDigit]

theorem charsToNat_pad2 (m : Nat) : charsToNat (VersionIt.pad2 m) = m := by
  unfold VersionIt.pad2
  split
  · rw [charsToNat_cons_zero, charsToNat_natToChars]
  · exact charsToNat_natToChars m

theorem visem_roundtrip (v : VersionIt.VISemVer) (hpre : v.preReleases = [])
    (hbld : ∀ b, v.build = some b → b.data ≠ [] ∧ b.data.all isIdChar = true) :
    VersionIt.VISemVer.fromString v.pfx v.toString = .ok v := by
  have hdata : (VersionIt.VISemVer.toString v).data =
      (v.pfx.map String.data).getD []
        ++ (natToChars v.major ++ ('.' :: (natToChars v.minor ++ ('.' :: (natToChars v.patch
            ++ Semver.optSuffix '+' v.build))))) := by
    simp [VersionIt.VISemVer.toString, hpre, List.append_assoc]
  have hstrip := stripPfx_render (VersionIt.VISemVer.toString v) v.pfx _ hdata
  have htail : ∀ ch, (Semver.optSuffix '+' v.build).head? = some ch →
      isDigitChar ch = false := by
    rcases hb : v.build with _ | b
    · intro ch hch
      simp [Semver.optSuffix] at hch
    · intro ch hch
      obtain ⟨hbne, hball⟩ := hbld b hb
      simp only [Semver.optSuffix] at hch
      rw [if_neg (by simpa [List.isEmpty_iff] using hbne)] at hch
      simp only [List.head?_cons] at hch
      injection hch with hch
      subst hch
      decide
  have hcore := parseCore_render v.major v.minor v.patch (Semver.optSuffix '+' v.build) htail
  unfold VersionIt.VISemVer.fromString
  rw [hstrip]
  simp only [bind, Except.bind]
  rw [hcore]
  rcases hb : v.build with _ | b
  · simp only [hb, Semver.optSuffix, Semver.parseTail, Option.map_some, charsToNat_natToChars]
    cases v
    simp_all [charsToNat_natToChars]
  · obtain ⟨hbne, hball⟩ := hbld b hb
    have harg : Semver.optSuffix '+' (some b) = '+' :: b.data := by
      simp only [Semver.optSuffix]
      rw [if_neg (by simpa [List.isEmpty_iff] using hbne)]
    rw [harg, parseTail_render_build b.data hbne hball]
    simp only [Option.map_some', charsToNat_natToChars]
    cases v
    simp_all [stringMk_data]

theorem calParseCore_render (y m mi : Nat) :
    VersionIt.calParseCore
        (natToChars y ++ ('.' :: (VersionIt.pad2 m ++ ('.' :: natToChars mi)))) =
      some (y, m, mi, []) := by
  unfold VersionIt.calParseCore
  rw [chunkDigits_append (natToChars_ne_nil y) (natToChars_digits y)
    (fun ch hch => by injection hch with hch; subst hch; decide)]
  simp only [bind, Option.some_bind]
  rw [show expectDot ('.' :: (VersionIt.pad2 m ++ ('.' :: natToChars mi))) =
      some (VersionIt.pad2 m ++ ('.' :: natToChars mi)) from rfl]
  simp only [Option.some_bind]
  rw [chunkDigits_append (pad2_ne_nil m) (pad2_digits m)
    (fun ch hch => by injection hch with hch; subst hch; decide)]
  simp only [Option.some_bind]
  rw [show expectDot ('.' :: natToChars mi) = some (natToChars mi) from rfl]
  simp only [Option.some_bind]
  have hch : chunkDigits (natToChars mi) = some (natToChars mi, []) := by
    have h2 := chunkDigits_append (d := natToChars mi) (r := [])
      (natToChars_ne_nil mi) (natToChars_digits mi) (fun ch hch => by cases hch)
    rwa [List.append_nil] at h2
  rw [hch]
  simp only [Option.some_bind]
  simp [VersionIt.parseModsF, charsToNat_natToChars, charsToNat_pad2]

theorem vical_roundtrip (v : VersionIt.VICalVer) (hmods : v.modifiers = []) (fmt : String) :
    VersionIt.VICalVer.fromString fmt v.pfx v.toString = .ok { v with format := fmt } := by
  have hdata : (VersionIt.VICalVer.toString v).data =
      (v.pfx.map String.data).getD []
        ++ (natToChars v.year ++ ('.' :: (VersionIt.pad2 v.month ++ ('.' :: natToChars v.micro)))) := by
    simp [VersionIt.VICalVer.toString, hmods, List.append_assoc]
  have hstrip := stripPfx_render (VersionIt.VICalVer.toString v) v.pfx _ hdata
  unfold VersionIt.VICalVer.fromString
  rw [hstrip]
  simp only [bind, Except.bind]
  rw [calParseCore_render]
  dsimp only
  cases v
  simp_all

/-- C6: for every version with no pre-release identifiers (SemVer) or no
modifiers (CalVer), whose prefix matches the configured prefix and whose
stored build/format data is well formed, the first-revision
`incrementVersion` with the `RELEASE` increment returns the version with
every field unchanged — for both values of the `prerelease`
configuration flag. -/
theorem c6_release_idempotent (cfg : Versioning.RunConfig) (clock : VersionIt.Clock)
    (branch : Branching.BranchType) (version : Versioning.Version)
    (hnopre : (match version with
      | .sem v => v.preReleases = []
      | .cal v => v.modifiers = []))
    (hpfx : (match version with | .sem v => v.pfx | .cal v => v.pfx) = cfg.pfx)
    (hwf : (match version with
      | .sem v => ∀ b, v.build = some b → b.data ≠ [] ∧ b.data.all isIdChar = true
      | .cal v => v.format = "YYYY.0M.MICRO")) :
    Versioning.incrementVersionR1 cfg clock branch version .RELEASE = .ok version := by
  rcases version with v | v <;> dsimp only at hnopre hpfx hwf
  · unfold Versioning.incrementVersionR1
    rcases hcp : cfg.prerelease
    · simp only [Bool.not_false, if_true]
      rw [← hpfx, visem_roundtrip v hnopre hwf]
      simp only [bind, Except.bind]
      have hv : { v with preReleases := ([] : List VersionIt.VIIdentifier) } = v := by
        cases v
        simp_all
      rw [hv]
    · simp
  · unfold Versioning.incrementVersionR1
    rcases hcp : cfg.prerelease
    · simp only [Bool.not_false, if_true]
      rw [← hpfx, vical_roundtrip v hnopre "YYYY.0M.MICRO"]
      simp only [bind, Except.bind]
      have hv : ({ v with format := "YYYY.0M.MICRO", modifiers := [] } : VersionIt.VICalVer) = v := by
        cases v
        simp_all
      rw [hv]
    · simp

/-- C6 witness: a plain SemVer with build metadata and a plain CalVer
are returned unchanged by a `RELEASE` increment, with the prerelease
flag off and on respectively. -/
theorem c6_release_idempotent_witness :
    Versioning.incrementVersionR1 ⟨false, none⟩ ⟨2023, 6⟩ .default
        (.sem ⟨none, 1, 2, 3, [], some "build.7"⟩) .RELEASE =
      .ok (.sem ⟨none, 1, 2, 3, [], some "build.7"⟩)
    ∧ Versioning.incrementVersionR1 ⟨true, none⟩ ⟨2023, 6⟩ .default
        (.cal ⟨"YYYY.0M.MICRO", none, 2023, 6, 3, []⟩) .RELEASE =
      .ok (.cal ⟨"YYYY.0M.MICRO", none, 2023, 6, 3, []⟩) :=
  ⟨c6_release_idempotent ⟨false, none⟩ ⟨2023, 6⟩ .default
      (.sem ⟨none, 1, 2, 3, [], some "build.7"⟩) rfl rfl
      (fun b hb => by injection hb with hb; subst hb; exact ⟨by decide, by decide⟩),
    c6_release_idempotent ⟨true, none⟩ ⟨2023, 6⟩ .default
      (.cal ⟨"YYYY.0M.MICRO", none, 2023, 6, 3, []⟩) rfl rfl rfl⟩
